import Mathlib

/-!
# Verification of the implicit segment index (`src/lib.rs`)

Shallow embedding of the Rust library `implicit-segment-index`.

Modelling conventions:
* `usize` is modelled as `ℕ` (the program only compares span coordinates and
  adds small counts; no wrap-around is reachable in the modelled claims).
* `f64` is modelled as `ℚ`: the program only uses `+`, `max`, `min` and
  comparisons on these fields, which the idealized field `ℚ` interprets
  exactly.
* `Vec<ISegment>` is modelled as `List ISegment`.  A Rust indexing expression
  `tree[i]` that can panic is modelled with `Option`: reads use `List.get?`
  (`none` = out-of-bounds panic) and writes use `setE` below.
* `ISegmentIndex::new` computes `2 * 2^ceil(log2(n)) - 1` with `f64`
  arithmetic; for the sizes involved this equals `2 * 2 ^ Nat.clog 2 n - 1`,
  which is how it is modelled.  For an empty input `values.len() - 1`
  underflows (a panic in debug builds); `new` returns `none` in that case.
* `update`'s recursion in the source terminates only because the unchecked
  accesses `tree[node_index]` panic once the index leaves the array.  It is
  modelled with a fuel parameter `tree.length + 1`: at recursion depth `d` the
  node index is at least `2^d - 1`, so when the fuel runs out the index is
  `≥ 2^(len+1) - 1 ≥ len` and the source would panic at that same point; both
  outcomes are `none`.

All other recursions (`build`, `append`'s ancestor walk, `query_dfs`,
`query_bfs`) are modelled by well-founded recursion on the same quantity that
makes the source terminate.
-/

/-- `Span` is a half-open interval `[start, end)`; the source field `end` is a
Lean keyword and is called `stop` here. -/
structure Span where
  start : ℕ
  stop : ℕ
deriving DecidableEq, Repr

/-- Rust `Span::default()` is `[0, 0)`. -/
instance : Inhabited Span := ⟨⟨0, 0⟩⟩

/-- `ISegment` is a segment of aggregations indexed by the index. -/
structure ISegment where
  span : Span
  count : ℕ
  max : ℚ
  min : ℚ
  sum : ℚ
deriving DecidableEq, Repr

/-- Rust `ISegment::default()`: default span, `count = 0`, all `f64` fields
`0.0`. -/
instance : Inhabited ISegment := ⟨⟨default, 0, 0, 0, 0⟩⟩

/-- `fn combine(left, right)` from the source. -/
def combine (left right : ISegment) : ISegment :=
  { span := ⟨left.span.start, right.span.stop⟩
    count := left.count + right.count
    max := max left.max right.max
    min := min left.min right.min
    sum := left.sum + right.sum }

/-- Bounds-checked write: Rust `tree[i] = v` (panic = `none` when `i` is out
of bounds). -/
def setE (t : List ISegment) (i : ℕ) (v : ISegment) : Option (List ISegment) :=
  if i < t.length then some (t.set i v) else none

/-- `ISegmentIndex::build`.  The `right < left` guard models the `usize`
underflow of `right - left` in `mid` (which panics); the source is only ever
called with `left ≤ right`. -/
def build (values : List ISegment) (index left right : ℕ) (t : List ISegment) :
    Option (List ISegment) :=
  if left = right then
    if left < values.length then setE t index (values.getD left default) else some t
  else if right < left then none
  else
    let mid : ℕ := left + (right - left) / 2
    match build values (index * 2 + 1) left mid t with
    | none => none
    | some t1 =>
      match build values (index * 2 + 2) (mid + 1) right t1 with
      | none => none
      | some t2 =>
        match t2.get? (index * 2 + 1), t2.get? (index * 2 + 2) with
        | some left_child, some right_child => setE t2 index (combine left_child right_child)
        | _, _ => none
  termination_by right - left
  decreasing_by
  · omega
  · omega

/-- `ISegmentIndex::new`. -/
def new (values : List ISegment) : Option (List ISegment) :=
  match values with
  | [] => none
  | _ :: _ =>
    let tree_size := 2 * 2 ^ Nat.clog 2 values.length - 1
    build values 0 0 (values.length - 1) (List.replicate tree_size default)

/-- The `while new_value_index > 0` ancestor-recomputation loop of
`ISegmentIndex::append`. -/
def appendLoop (t : List ISegment) (nvi : ℕ) : Option (List ISegment) :=
  if nvi = 0 then some t
  else
    let p := (nvi - 1) / 2
    match t.get? (p * 2 + 1), t.get? (p * 2 + 2) with
    | some left_child, some right_child =>
      match setE t p (combine left_child right_child) with
      | none => none
      | some t' => appendLoop t' p
    | _, _ => none
  termination_by nvi
  decreasing_by omega

/-- `ISegmentIndex::append`.  `resize` to `tree_size * 2 + 1` appends
`tree_size + 1` default segments. -/
def append (t : List ISegment) (value : ISegment) : Option (List ISegment) :=
  let tree_size := t.length
  let new_value_index := (tree_size + 1) / 2
  let t' := if new_value_index * 2 ≥ tree_size
    then t ++ List.replicate (tree_size + 1) default
    else t
  match setE t' new_value_index value with
  | none => none
  | some t1 => appendLoop t1 new_value_index

/-- The inner `update_recursive` of `ISegmentIndex::update`, with fuel (see
the module comment: exhausted fuel coincides with an out-of-bounds panic of
the source).  The recomputation of the interior node is written out in the
source instead of calling `combine`; it is transcribed the same way. -/
def updateRec : ℕ → List ISegment → ℕ → ℕ → ISegment → Option (List ISegment)
  | 0, _, _, _, _ => none
  | fuel + 1, t, node_index, target_start, value =>
    match t.get? node_index with
    | none => none
    | some node =>
      if target_start ≥ node.span.start ∧ target_start ≤ node.span.stop then
        if node.span.start = node.span.stop then setE t node_index value
        else
          match updateRec fuel t (node_index * 2 + 1) target_start value with
          | none => none
          | some t1 =>
            match updateRec fuel t1 (node_index * 2 + 2) target_start value with
            | none => none
            | some t2 =>
              match t2.get? (node_index * 2 + 1), t2.get? (node_index * 2 + 2) with
              | some left_child, some right_child =>
                setE t2 node_index
                  { span := ⟨left_child.span.start, right_child.span.stop⟩
                    count := left_child.count + right_child.count
                    max := max left_child.max right_child.max
                    min := min left_child.min right_child.min
                    sum := left_child.sum + right_child.sum }
              | _, _ => none
      else some t

/-- `ISegmentIndex::update`. -/
def update (t : List ISegment) (target_start : ℕ) (value : ISegment) :
    Option (List ISegment) :=
  updateRec (t.length + 1) t 0 target_start value

/-- `ISegmentIndex::query_dfs`. -/
def query_dfs (t : List ISegment) (index : ℕ) (query_span : Span) : Option ISegment :=
  if h : index ≥ t.length then none
  else
    let node := t.getD index default
    if query_span.stop < node.span.start ∨ node.span.stop < query_span.start then
      none
    else if query_span.start ≤ node.span.start ∧ node.span.stop ≤ query_span.stop then
      some node
    else
      match query_dfs t (index * 2 + 1) query_span,
            query_dfs t (index * 2 + 2) query_span with
      | some left, some right =>
        some { span := ⟨left.span.start, right.span.stop⟩
               count := left.count + right.count
               max := max left.max right.max
               min := min left.min right.min
               sum := left.sum + right.sum }
      | some left, none => some left
      | none, some right => some right
      | none, none => none
  termination_by t.length - index
  decreasing_by
  · omega
  · omega

/-- Number of in-bounds array positions in the subtree rooted at `i` of a
heap-shaped array of length `len`; the termination measure of the `query_bfs`
work queue. -/
def subSize (len i : ℕ) : ℕ :=
  if h : i < len then 1 + subSize len (i * 2 + 1) + subSize len (i * 2 + 2) else 0
  termination_by len - i
  decreasing_by
  · omega
  · omega

/-- The `while let Some(i) = queue.pop_front()` loop of
`ISegmentIndex::query_bfs`.  Note the source's accumulator merge computes the
new span end from `res.span.start` (not `res.span.end`); it is transcribed
faithfully. -/
def bfsLoop (t : List ISegment) (query_span : Span) (queue : List ℕ)
    (result : Option ISegment) : Option ISegment :=
  match queue with
  | [] => result
  | i :: rest =>
    if h : i ≥ t.length then result
    else
      let node := t.getD i default
      if query_span.stop < node.span.start ∨ node.span.stop < query_span.start then
        bfsLoop t query_span rest result
      else if query_span.start ≤ node.span.start ∧ node.span.stop ≤ query_span.stop then
        bfsLoop t query_span rest
          (match result with
           | some res =>
             some { span := ⟨min res.span.start node.span.start,
                             max res.span.start node.span.stop⟩
                    count := res.count + node.count
                    max := max res.max node.max
                    min := min res.min node.min
                    sum := res.sum + node.sum }
           | none => some node)
      else
        bfsLoop t query_span (rest ++ [i * 2 + 1, i * 2 + 2]) result
  termination_by (queue.map (subSize t.length)).sum
  decreasing_by
  · have hpos : 0 < subSize t.length i := by
      rw [subSize]
      simp only [not_le.mp h, dif_pos]
      omega
    simp only [List.map_cons, List.sum_cons]
    omega
  · have hpos : 0 < subSize t.length i := by
      rw [subSize]
      simp only [not_le.mp h, dif_pos]
      omega
    simp only [List.map_cons, List.sum_cons]
    omega
  · have hrec : subSize t.length i
        = 1 + subSize t.length (i * 2 + 1) + subSize t.length (i * 2 + 2) := by
      rw [subSize]
      simp only [not_le.mp h, dif_pos]
    simp only [List.map_cons, List.sum_cons, List.map_append, List.sum_append,
      List.map_nil, List.sum_nil]
    omega

/-- `ISegmentIndex::query_bfs`. -/
def query_bfs (t : List ISegment) (query_span : Span) : Option ISegment :=
  bfsLoop t query_span [0] none

/-! ## Specification-side definitions -/

/-- Fold of a batch of segments through `combine`, left to right in batch
order; `none` for the empty batch (`combine` has no identity). -/
def fold1 : List ISegment → Option ISegment
  | [] => none
  | x :: xs => some (xs.foldl combine x)

/-- Modelled from the spec: a leaf participates in a query `[lo, hi)` exactly
when its half-open span intersects it. -/
def overlapsQ (query_span : Span) (s : ISegment) : Bool :=
  decide (query_span.start < s.span.stop ∧ s.span.start < query_span.stop)

/-- Modelled from the spec: the linear fold, via `combine` in ascending time
order, of precisely those input leaves whose spans intersect the query span. -/
def leavesFold (query_span : Span) (leaves : List ISegment) : Option ISegment :=
  fold1 (leaves.filter (overlapsQ query_span))

/-- The four aggregate fields of a segment (the spec's `count`/`sum`/`min`/
`max`, ignoring span bookkeeping). -/
structure Aggr where
  count : ℕ
  max : ℚ
  min : ℚ
  sum : ℚ
deriving DecidableEq, Repr

/-- Projection of a segment to its aggregate fields. -/
def ag (s : ISegment) : Aggr := ⟨s.count, s.max, s.min, s.sum⟩

/-- Merge of aggregates: the additive/extremal rules shared by `combine`,
the `query_dfs` merge and the `query_bfs` accumulator. -/
def agAdd (a b : Aggr) : Aggr :=
  ⟨a.count + b.count, max a.max b.max, min a.min b.min, a.sum + b.sum⟩

/-- Merge of optional aggregates, `none` (no result) being absorbed. -/
def oadd : Option Aggr → Option Aggr → Option Aggr
  | none, none => none
  | none, some b => some b
  | some a, none => some a
  | some a, some b => some (agAdd a b)

/-- An ascending, contiguous, gapless batch: adjacent spans abut and every
span is nonempty. -/
def AscContig (l : List ISegment) : Prop :=
  l.Chain' (fun a b => a.span.stop = b.span.start) ∧ ∀ s ∈ l, s.span.start < s.span.stop

/-- Fueled decidable check of the layout produced by `build` on the index
range `[left, right]` rooted at array position `i`: positions reached with
`left = right` hold the corresponding input bucket, positions reached with
`left < right` satisfy the `combine` consistency with their two children.
Any fuel exceeding `right - left` is exact. -/
def buildOk (values : List ISegment) : ℕ → ℕ → ℕ → ℕ → List ISegment → Bool
  | 0, _, _, _, _ => false
  | fuel + 1, left, right, i, t =>
    if left = right then t.get? i == values.get? left
    else if right < left then true
    else
      let mid := left + (right - left) / 2
      buildOk values fuel left mid (i * 2 + 1) t &&
      buildOk values fuel (mid + 1) right (i * 2 + 2) t &&
      (t.get? i == some (combine (t.getD (i * 2 + 1) default) (t.getD (i * 2 + 2) default)))

/-- `d`-fold parent in the heap indexing (`parent j = (j-1)/2`; the root is
its own parent). -/
def anc : ℕ → ℕ → ℕ
  | 0, j => j
  | d + 1, j => anc d ((j - 1) / 2)

/-- `InSub i j`: array position `j` lies in the subtree rooted at position
`i` of the heap indexing. -/
def InSub (i j : ℕ) : Prop := ∃ d, anc d j = i

/-! ## Concrete inputs used by the counterexample/divergence theorems -/

/-- Three contiguous unit buckets with values `5`, `6`, `7`. -/
def batchA : List ISegment := [⟨⟨0, 1⟩, 1, 5, 5, 5⟩, ⟨⟨1, 2⟩, 1, 6, 6, 6⟩, ⟨⟨2, 3⟩, 1, 7, 7, 7⟩]

/-- The tree `new batchA` produces (checked in `newBatchA`). -/
def treeA : List ISegment :=
  [⟨⟨0, 3⟩, 3, 7, 5, 18⟩, ⟨⟨0, 2⟩, 2, 6, 5, 11⟩, ⟨⟨2, 3⟩, 1, 7, 7, 7⟩,
   ⟨⟨0, 1⟩, 1, 5, 5, 5⟩, ⟨⟨1, 2⟩, 1, 6, 6, 6⟩, ⟨⟨0, 0⟩, 0, 0, 0, 0⟩, ⟨⟨0, 0⟩, 0, 0, 0, 0⟩]

/-- Two contiguous unit buckets with values `3` and `4`. -/
def batchB : List ISegment := [⟨⟨0, 1⟩, 1, 3, 3, 3⟩, ⟨⟨1, 2⟩, 1, 4, 4, 4⟩]

/-- Two contiguous unit buckets with values `1` and `2`. -/
def batchC : List ISegment := [⟨⟨0, 1⟩, 1, 1, 1, 1⟩, ⟨⟨1, 2⟩, 1, 2, 2, 2⟩]

/-- The tree `new batchC` produces. -/
def treeC : List ISegment :=
  [⟨⟨0, 2⟩, 2, 2, 1, 3⟩, ⟨⟨0, 1⟩, 1, 1, 1, 1⟩, ⟨⟨1, 2⟩, 1, 2, 2, 2⟩]

/-- Two contiguous unit buckets with values `8` and `9`. -/
def batchD : List ISegment := [⟨⟨0, 1⟩, 1, 8, 8, 8⟩, ⟨⟨1, 2⟩, 1, 9, 9, 9⟩]

/-- The tree `new batchD` produces. -/
def treeD : List ISegment :=
  [⟨⟨0, 2⟩, 2, 9, 8, 17⟩, ⟨⟨0, 1⟩, 1, 8, 8, 8⟩, ⟨⟨1, 2⟩, 1, 9, 9, 9⟩]

/-- Three contiguous unit buckets with values `1`, `2`, `3`. -/
def batchE : List ISegment := [⟨⟨0, 1⟩, 1, 1, 1, 1⟩, ⟨⟨1, 2⟩, 1, 2, 2, 2⟩, ⟨⟨2, 3⟩, 1, 3, 3, 3⟩]

/-- The tree `new batchE` produces. -/
def treeE : List ISegment :=
  [⟨⟨0, 3⟩, 3, 3, 1, 6⟩, ⟨⟨0, 2⟩, 2, 2, 1, 3⟩, ⟨⟨2, 3⟩, 1, 3, 3, 3⟩,
   ⟨⟨0, 1⟩, 1, 1, 1, 1⟩, ⟨⟨1, 2⟩, 1, 2, 2, 2⟩, ⟨⟨0, 0⟩, 0, 0, 0, 0⟩, ⟨⟨0, 0⟩, 0, 0, 0, 0⟩]

/-- Fold through `combine` of the segments `values[l..r]` (inclusive index
range), left to right. -/
def foldRange (values : List ISegment) (l r : ℕ) : ISegment :=
  ((values.drop (l + 1)).take (r - l)).foldl combine (values.getD l default)

/-- Invariant of the `query_bfs` work queue: it is strictly ascending, and
all entries behind the head `i` are at most `2 * i` (they are children of
already-popped parents, which were all smaller than `i`). -/
def QInv : List ℕ → Prop
  | [] => True
  | i :: rest => (∀ j ∈ rest, i < j ∧ j ≤ 2 * i) ∧ QInv rest

/-- Aggregate view of a `query_dfs` answer from array position `i`. -/
def dfsAg (t : List ISegment) (query_span : Span) (i : ℕ) : Option Aggr :=
  (query_dfs t i query_span).map ag

/-- A single bucket whose own aggregate covers five raw samples
(`count = 5`). -/
def batchF : List ISegment := [⟨⟨0, 1⟩, 5, 2, 2, 2⟩]

/-! ## Basic facts -/

theorem default_ISegment : (default : ISegment) = ⟨⟨0, 0⟩, 0, 0, 0, 0⟩ := rfl

theorem combine_assoc (a b c : ISegment) :
    combine (combine a b) c = combine a (combine b c) := by
  simp [combine, max_assoc, min_assoc, add_assoc]

/-! ## Claim theorems on concrete inputs -/

/-- C1: the claim fails on the code.  On the ascending contiguous batch
`batchA` (unit buckets with values 5, 6, 7) and the in-range query span
`[0, 2)`, `query_dfs` descends into the padding children of the node holding
the third bucket, treats their default `[0, 0)` spans as totally overlapped,
and folds their default `min = 0` into the answer: the query returns
`min = 0` while the linear `combine`-fold of the leaves intersecting
`[0, 2)` has `min = 5`. -/
theorem c1_query_vs_fold_divergence :
    new batchA = some treeA ∧
    (query_dfs treeA 0 ⟨0, 2⟩).map ISegment.min = some 0 ∧
    (leavesFold ⟨0, 2⟩ batchA).map ISegment.min = some 5 := by
  refine ⟨?_, ?_, ?_⟩
  · simp [new, batchA, Nat.clog, build, setE, combine, treeA, List.replicate, default_ISegment]
    norm_num
  · simp [query_dfs, treeA]
  · norm_num [leavesFold, fold1, overlapsQ, combine, batchA]

/-- C2: the claim fails on the code.  Building from the single bucket
`[0,1) ↦ 3` and appending the contiguous bucket `[1,2) ↦ 4` writes the new
leaf at position `(len+1)/2 = 1` and recomputes the root from positions 1
and 2, losing the original bucket: querying the full covered span `[0, 2)`
then reports `count = 1`, whereas building both buckets at once reports
`count = 2`. -/
theorem c2_append_divergence :
    (((new [⟨⟨0, 1⟩, 1, 3, 3, 3⟩]).bind (fun t => append t ⟨⟨1, 2⟩, 1, 4, 4, 4⟩)).bind
      (fun t => query_dfs t 0 ⟨0, 2⟩)).map ISegment.count = some 1 ∧
    ((new batchB).bind (fun t => query_dfs t 0 ⟨0, 2⟩)).map ISegment.count = some 2 := by
  constructor
  · have hn : new [⟨⟨0, 1⟩, 1, 3, 3, 3⟩] = some [⟨⟨0, 1⟩, 1, 3, 3, 3⟩] := by
      simp [new, Nat.clog, build, setE, List.replicate, default_ISegment]
    have ha : append [⟨⟨0, 1⟩, 1, 3, 3, 3⟩] ⟨⟨1, 2⟩, 1, 4, 4, 4⟩
        = some [⟨⟨1, 0⟩, 1, 4, 0, 4⟩, ⟨⟨1, 2⟩, 1, 4, 4, 4⟩, ⟨⟨0, 0⟩, 0, 0, 0, 0⟩] := by
      simp [append, appendLoop, setE, combine, List.replicate, default_ISegment]
    rw [hn, Option.some_bind, ha, Option.some_bind]
    simp [query_dfs]
  · have h1 : new batchB
        = some [⟨⟨0, 2⟩, 2, 4, 3, 7⟩, ⟨⟨0, 1⟩, 1, 3, 3, 3⟩, ⟨⟨1, 2⟩, 1, 4, 4, 4⟩] := by
      simp [new, batchB, Nat.clog, build, setE, combine, List.replicate, default_ISegment]
      norm_num
    rw [h1, Option.some_bind]
    simp [query_dfs]

/-- C3: the claim fails on the code.  On the index built from the two
buckets of `batchC`, `update(0, v)` matches the real leaf `[0, 1)` (whose
`start ≠ end`, so the `span.start == span.end` leaf test fails), recurses
into its child at position 3, and performs an out-of-bounds access (a panic,
`none` here) instead of replacing exactly that leaf and recomputing its
ancestors. -/
theorem c3_update_faults :
    new batchC = some treeC ∧ update treeC 0 ⟨⟨0, 1⟩, 1, 9, 9, 9⟩ = none := by
  constructor
  · simp [new, batchC, Nat.clog, build, setE, combine, treeC, List.replicate, default_ISegment]
    norm_num
  · decide

/-- C4: the claim fails on the code.  `update`'s recursive descent has no
bounds check: on the index built from `batchD`, `update(1, v)` reaches the
leaf `[0, 1)` (matched because the span test uses an inclusive end), recurses
to child position 3 which is at the allocated length, and faults (`none`,
a Rust panic) rather than treating the position as a logical no-overlap
leaf. -/
theorem c4_update_oob_not_treated_as_empty :
    new batchD = some treeD ∧ treeD.length = 3 ∧
    update treeD 1 ⟨⟨1, 2⟩, 1, 2, 2, 2⟩ = none := by
  refine ⟨?_, rfl, by decide⟩
  simp [new, batchD, Nat.clog, build, setE, combine, treeD, List.replicate, default_ISegment]
  norm_num

/-- C5: the claim fails on the code.  `combine` never inspects `count`: with
`s = ⟨[3,4), count 1, max 5, min 5, sum 5⟩` and the padding segment
`p = ⟨[0,0), count 0, 0, 0, 0⟩`, both `combine s p` and `combine p s` have
`min = 0 ≠ s.min = 5` — the padding bounds do contribute to the merge. -/
theorem c5_combine_padding_divergence :
    combine ⟨⟨3, 4⟩, 1, 5, 5, 5⟩ ⟨⟨0, 0⟩, 0, 0, 0, 0⟩ = ⟨⟨3, 0⟩, 1, 5, 0, 5⟩ ∧
    combine ⟨⟨0, 0⟩, 0, 0, 0, 0⟩ ⟨⟨3, 4⟩, 1, 5, 5, 5⟩ = ⟨⟨0, 4⟩, 1, 5, 0, 5⟩ ∧
    (combine ⟨⟨3, 4⟩, 1, 5, 5, 5⟩ ⟨⟨0, 0⟩, 0, 0, 0, 0⟩).min
      ≠ (⟨⟨3, 4⟩, 1, 5, 5, 5⟩ : ISegment).min := by
  refine ⟨by norm_num [combine], by norm_num [combine], by norm_num [combine]⟩

/-- C6 counterexample: after `new` on the ascending contiguous 3-bucket
batch `batchE`, array position 2 holds the third input bucket
(`count = 1`) while its two children, positions 5 and 6, are in bounds
(length 7) and hold padding defaults — so this "internal array node" (a node
with in-bounds children) violates the claimed count consistency
`1 ≠ 0 + 0`. -/
theorem c6_internal_node_counterexample :
    new batchE = some treeE ∧ 2 * 2 + 2 < treeE.length ∧
    (treeE.getD 2 ⟨⟨0, 0⟩, 0, 0, 0, 0⟩).count ≠
      (treeE.getD (2 * 2 + 1) ⟨⟨0, 0⟩, 0, 0, 0, 0⟩).count +
      (treeE.getD (2 * 2 + 2) ⟨⟨0, 0⟩, 0, 0, 0, 0⟩).count := by
  refine ⟨?_, by norm_num [treeE], by norm_num [treeE]⟩
  simp [new, batchE, Nat.clog, build, setE, combine, treeE, List.replicate, default_ISegment]
  norm_num

/-- C8: `combine` is associative for chronologically contiguous segments
(the result is in fact a full structure equality, span included, and holds
without the contiguity hypotheses). -/
theorem c8_combine_associative (a b c : ISegment)
    (hab : a.span.stop = b.span.start) (hbc : b.span.stop = c.span.start) :
    combine (combine a b) c = combine a (combine b c) := by
  simp [combine, max_assoc, min_assoc, add_assoc]

/-- Witness for C8 at the three contiguous unit buckets `[0,1)`, `[1,2)`,
`[2,3)`. -/
theorem c8_combine_associative_witness :
    ((⟨⟨0, 1⟩, 1, 1, 1, 1⟩ : ISegment).span.stop = (⟨⟨1, 2⟩, 1, 2, 2, 2⟩ : ISegment).span.start ∧
     (⟨⟨1, 2⟩, 1, 2, 2, 2⟩ : ISegment).span.stop = (⟨⟨2, 3⟩, 1, 3, 3, 3⟩ : ISegment).span.start) ∧
    combine (combine ⟨⟨0, 1⟩, 1, 1, 1, 1⟩ ⟨⟨1, 2⟩, 1, 2, 2, 2⟩) ⟨⟨2, 3⟩, 1, 3, 3, 3⟩
      = combine ⟨⟨0, 1⟩, 1, 1, 1, 1⟩ (combine ⟨⟨1, 2⟩, 1, 2, 2, 2⟩ ⟨⟨2, 3⟩, 1, 3, 3, 3⟩) :=
  ⟨⟨rfl, rfl⟩, c8_combine_associative ⟨⟨0, 1⟩, 1, 1, 1, 1⟩ ⟨⟨1, 2⟩, 1, 2, 2, 2⟩
    ⟨⟨2, 3⟩, 1, 3, 3, 3⟩ rfl rfl⟩

/-- C10: for any index whose root segment has span `[s, e)` and any
`target_start` strictly beyond `e`, `update` is a silent no-op: the root
containment test `target_start ≤ span.end` fails at the root, nothing is
mutated and the backing array is returned unchanged. -/
theorem c10_update_beyond_span_is_noop (t : List ISegment) (root value : ISegment)
    (target_start : ℕ) (hroot : t.get? 0 = some root)
    (htarget : root.span.stop < target_start) :
    update t target_start value = some t := by
  show updateRec (t.length + 1) t 0 target_start value = some t
  rw [updateRec, hroot]
  simp only []
  rw [if_neg (by omega)]

/-- Witness for C10: on the index built from `batchC` (root span `[0, 2)`),
updating key `9` leaves the array unchanged. -/
theorem c10_update_beyond_span_is_noop_witness :
    treeC.get? 0 = some ⟨⟨0, 2⟩, 2, 2, 1, 3⟩ ∧
    (⟨⟨0, 2⟩, 2, 2, 1, 3⟩ : ISegment).span.stop < 9 ∧
    update treeC 9 ⟨⟨0, 1⟩, 1, 9, 9, 9⟩ = some treeC :=
  ⟨by simp [treeC], by norm_num,
   c10_update_beyond_span_is_noop treeC ⟨⟨0, 2⟩, 2, 2, 1, 3⟩ ⟨⟨0, 1⟩, 1, 9, 9, 9⟩ 9
     (by simp [treeC]) (by norm_num)⟩

/-! ## The subtree relation of the heap indexing -/

theorem anc_le : ∀ (d j : ℕ), anc d j ≤ j := by
  intro d
  induction d with
  | zero => intro j; exact le_refl j
  | succ d ih => intro j; exact le_trans (ih ((j - 1) / 2)) (by omega)

theorem anc_succ_out : ∀ (d j : ℕ), anc (d + 1) j = (anc d j - 1) / 2 := by
  intro d
  induction d with
  | zero => intro j; rfl
  | succ d ih => intro j; exact ih ((j - 1) / 2)

theorem anc_add (a b : ℕ) : ∀ j, anc (a + b) j = anc a (anc b j) := by
  induction b with
  | zero => intro j; rfl
  | succ b ih => intro j; exact ih ((j - 1) / 2)

theorem InSub.refl (i : ℕ) : InSub i i := ⟨0, rfl⟩

theorem InSub.le {i j : ℕ} (h : InSub i j) : i ≤ j := by
  rcases h with ⟨d, hd⟩
  rw [← hd]
  exact anc_le d j

theorem InSub.of_left {i j : ℕ} (h : InSub (i * 2 + 1) j) : InSub i j := by
  rcases h with ⟨d, hd⟩
  refine ⟨d + 1, ?_⟩
  rw [anc_succ_out, hd]
  omega

theorem InSub.of_right {i j : ℕ} (h : InSub (i * 2 + 2) j) : InSub i j := by
  rcases h with ⟨d, hd⟩
  refine ⟨d + 1, ?_⟩
  rw [anc_succ_out, hd]
  omega

theorem InSub.disjoint {i j : ℕ} (h1 : InSub (i * 2 + 1) j) (h2 : InSub (i * 2 + 2) j) :
    False := by
  rcases h1 with ⟨d1, hd1⟩
  rcases h2 with ⟨d2, hd2⟩
  rcases Nat.lt_trichotomy d1 d2 with h | h | h
  · obtain ⟨k, hk⟩ : ∃ k, d2 - d1 = k + 1 := ⟨d2 - d1 - 1, by omega⟩
    have e : anc (k + 1) (i * 2 + 1) = i * 2 + 2 := by
      rw [← hd1, ← anc_add, ← hk, Nat.sub_add_cancel h.le]
      exact hd2
    have e2 : anc (k + 1) (i * 2 + 1) = anc k i := by
      show anc k ((i * 2 + 1 - 1) / 2) = anc k i
      congr 1
      omega
    have := anc_le k i
    omega
  · rw [h] at hd1
    rw [hd1] at hd2
    omega
  · obtain ⟨k, hk⟩ : ∃ k, d1 - d2 = k + 1 := ⟨d1 - d2 - 1, by omega⟩
    have e : anc (k + 1) (i * 2 + 2) = i * 2 + 1 := by
      rw [← hd2, ← anc_add, ← hk, Nat.sub_add_cancel h.le]
      exact hd1
    have e2 : anc (k + 1) (i * 2 + 2) = anc k i := by
      show anc k ((i * 2 + 2 - 1) / 2) = anc k i
      congr 1
      omega
    have := anc_le k i
    omega

/-! ## Folds of `combine` over index ranges -/

theorem foldl_combine_hoist (ys : List ISegment) : ∀ (a b : ISegment),
    ys.foldl combine (combine a b) = combine a (ys.foldl combine b) := by
  induction ys with
  | nil => intro a b; rfl
  | cons z ys ih =>
    intro a b
    show ys.foldl combine (combine (combine a b) z) = combine a (ys.foldl combine (combine b z))
    rw [combine_assoc]
    exact ih a (combine b z)

theorem foldRange_split (values : List ISegment) (l mid r : ℕ)
    (hlm : l ≤ mid) (hmr : mid < r) (hr : r < values.length) :
    foldRange values l r = combine (foldRange values l mid) (foldRange values (mid + 1) r) := by
  unfold foldRange
  have hsplit : (values.drop (l + 1)).take (r - l)
      = (values.drop (l + 1)).take (mid - l) ++ (values.drop (mid + 1)).take (r - mid) := by
    have h1 : r - l = (mid - l) + (r - mid) := by omega
    rw [h1, List.take_add, List.drop_drop]
    have h2 : l + 1 + (mid - l) = mid + 1 := by omega
    rw [h2]
  have hm1 : mid + 1 < values.length := by omega
  have hcons : (values.drop (mid + 1)).take (r - mid)
      = values.getD (mid + 1) default :: (values.drop (mid + 2)).take (r - (mid + 1)) := by
    rw [List.drop_eq_getElem_cons hm1]
    obtain ⟨k, hk⟩ : ∃ k, r - mid = k + 1 := ⟨r - mid - 1, by omega⟩
    rw [hk, List.take_succ_cons]
    have h3 : r - (mid + 1) = k := by omega
    rw [h3, List.getD_eq_getElem?_getD, List.getElem?_eq_getElem hm1, Option.getD_some]
  rw [hsplit, List.foldl_append, hcons, List.foldl_cons, foldl_combine_hoist]

theorem getD_from_get? (l : List ISegment) (n : ℕ) (a : ISegment) :
    l.getD n a = (l.get? n).getD a := by
  rw [List.get?_eq_getElem?, List.getD_eq_getElem?_getD]

theorem clog2_half (s : ℕ) (hs : 2 ≤ s) : Nat.clog 2 s = Nat.clog 2 ((s + 1) / 2) + 1 := by
  have h := Nat.clog_of_two_le (b := 2) (by norm_num) hs
  have h2 : s + 2 - 1 = s + 1 := by omega
  rw [h, h2]

theorem buildOk_congr (values : List ISegment) : ∀ (f l r i : ℕ) (t1 t2 : List ISegment),
    (∀ j, InSub i j → t1.get? j = t2.get? j) →
    buildOk values f l r i t1 = buildOk values f l r i t2 := by
  intro f
  induction f with
  | zero => intros; rfl
  | succ f ih =>
    intro l r i t1 t2 hagree
    have hi : t1.get? i = t2.get? i := hagree i (InSub.refl i)
    have h1 : t1.get? (i * 2 + 1) = t2.get? (i * 2 + 1) :=
      hagree _ (InSub.of_left (InSub.refl _))
    have h2 : t1.get? (i * 2 + 2) = t2.get? (i * 2 + 2) :=
      hagree _ (InSub.of_right (InSub.refl _))
    simp only [buildOk]
    by_cases hlr : l = r
    · simp only [if_pos hlr]
      rw [hi]
    · by_cases hrl : r < l
      · simp only [if_neg hlr, if_pos hrl]
      · simp only [if_neg hlr, if_neg hrl]
        rw [ih l (l + (r - l) / 2) (i * 2 + 1) t1 t2
              (fun j hj => hagree j (InSub.of_left hj)),
            ih ((l + (r - l) / 2) + 1) r (i * 2 + 2) t1 t2
              (fun j hj => hagree j (InSub.of_right hj)),
            hi, getD_from_get?, getD_from_get?, h1, h2, ← getD_from_get?, ← getD_from_get?]

theorem values_get?_of_lt (values : List ISegment) (l : ℕ) (hl : l < values.length) :
    values.get? l = some (values.getD l default) := by
  rw [List.get?_eq_getElem?, List.getElem?_eq_getElem hl, List.getD_eq_getElem?_getD,
    List.getElem?_eq_getElem hl, Option.getD_some]

theorem build_leaf (values : List ISegment) (l i : ℕ) (t : List ISegment)
    (hl : l < values.length) (hi : i < t.length) :
    ∃ t', build values i l l t = some t' ∧ t'.length = t.length ∧
      (∀ j, ¬ InSub i j → t'.get? j = t.get? j) ∧
      t'.get? i = some (foldRange values l l) ∧
      ∀ f, 0 < f → buildOk values f l l i t' = true := by
  have hfr : foldRange values l l = values.getD l default := by
    simp [foldRange]
  refine ⟨t.set i (values.getD l default), ?_, ?_, ?_, ?_, ?_⟩
  · rw [build, if_pos rfl, if_pos hl, setE, if_pos hi]
  · rw [List.length_set]
  · intro j hj
    have hji : j ≠ i := fun h => hj (h ▸ InSub.refl i)
    exact List.get?_set_ne _ _ (fun h => hji h.symm)
  · rw [List.get?_set_eq_of_lt _ hi, hfr]
  · intro f hf
    obtain ⟨f', rfl⟩ : ∃ f'', f = f'' + 1 := ⟨f - 1, by omega⟩
    simp only [buildOk, if_pos rfl]
    rw [List.get?_set_eq_of_lt _ hi, values_get?_of_lt values l hl]
    simp

/-! ## What `build` and `new` produce -/

theorem build_main (values : List ISegment) : ∀ (d l r i : ℕ) (t : List ISegment),
    r - l ≤ d → l ≤ r → r < values.length →
    (i + 2) * 2 ^ Nat.clog 2 (r - l + 1) ≤ t.length + 1 →
    ∃ t', build values i l r t = some t' ∧ t'.length = t.length ∧
      (∀ j, ¬ InSub i j → t'.get? j = t.get? j) ∧
      t'.get? i = some (foldRange values l r) ∧
      ∀ f, r - l < f → buildOk values f l r i t' = true := by
  intro d
  induction d with
  | zero =>
    intro l r i t hd hlr hr hfit
    have hlr' : l = r := by omega
    subst hlr'
    have hi : i < t.length := by
      have h1 : (1 : ℕ) ≤ 2 ^ Nat.clog 2 (l - l + 1) := Nat.one_le_two_pow
      nlinarith [hfit]
    simpa using build_leaf values l i t hr hi
  | succ d ih =>
    intro l r i t hd hlr hr hfit
    by_cases hlr' : l = r
    · subst hlr'
      have hi : i < t.length := by
        have h1 : (1 : ℕ) ≤ 2 ^ Nat.clog 2 (l - l + 1) := Nat.one_le_two_pow
        nlinarith [hfit]
      simpa using build_leaf values l i t hr hi
    · have hlr2 : l < r := by omega
      have hs2 : 2 ≤ r - l + 1 := by omega
      have hstep : Nat.clog 2 (r - l + 1)
          = Nat.clog 2 (l + (r - l) / 2 - l + 1) + 1 := by
        have h1 : l + (r - l) / 2 - l + 1 = (r - l + 1 + 1) / 2 := by omega
        rw [clog2_half _ hs2, h1]
      have hpow2 : (2 : ℕ) ≤ 2 ^ Nat.clog 2 (r - l + 1) := by
        calc (2 : ℕ) = 2 ^ 1 := rfl
          _ ≤ 2 ^ Nat.clog 2 (r - l + 1) :=
            Nat.pow_le_pow_right (by norm_num) (by omega)
      have hexpand : (i + 2) * 2 ^ Nat.clog 2 (r - l + 1)
          = ((i + 2) * 2) * 2 ^ Nat.clog 2 (l + (r - l) / 2 - l + 1) := by
        rw [hstep, pow_succ]
        ring
      have hfitL : ((i * 2 + 1) + 2) * 2 ^ Nat.clog 2 (l + (r - l) / 2 - l + 1)
          ≤ t.length + 1 := by
        calc ((i * 2 + 1) + 2) * 2 ^ Nat.clog 2 (l + (r - l) / 2 - l + 1)
            ≤ ((i + 2) * 2) * 2 ^ Nat.clog 2 (l + (r - l) / 2 - l + 1) :=
              Nat.mul_le_mul_right _ (by omega)
          _ = (i + 2) * 2 ^ Nat.clog 2 (r - l + 1) := hexpand.symm
          _ ≤ t.length + 1 := hfit
      have hfitR : ((i * 2 + 2) + 2) * 2 ^ Nat.clog 2 (r - (l + (r - l) / 2 + 1) + 1)
          ≤ t.length + 1 := by
        have hmono : Nat.clog 2 (r - (l + (r - l) / 2 + 1) + 1)
            ≤ Nat.clog 2 (l + (r - l) / 2 - l + 1) :=
          Nat.clog_mono_right _ (by omega)
        calc ((i * 2 + 2) + 2) * 2 ^ Nat.clog 2 (r - (l + (r - l) / 2 + 1) + 1)
            ≤ ((i + 2) * 2) * 2 ^ Nat.clog 2 (l + (r - l) / 2 - l + 1) :=
              Nat.mul_le_mul (by omega) (Nat.pow_le_pow_right (by norm_num) hmono)
          _ = (i + 2) * 2 ^ Nat.clog 2 (r - l + 1) := hexpand.symm
          _ ≤ t.length + 1 := hfit
      obtain ⟨t1, hb1, hlen1, hfr1, hget1, hok1⟩ :=
        ih l (l + (r - l) / 2) (i * 2 + 1) t (by omega) (by omega) (by omega) hfitL
      obtain ⟨t2, hb2, hlen2, hfr2, hget2, hok2⟩ :=
        ih (l + (r - l) / 2 + 1) r (i * 2 + 2) t1 (by omega) (by omega) hr
          (by rw [hlen1]; exact hfitR)
      have hl_in_t2 : t2.get? (i * 2 + 1) = some (foldRange values l (l + (r - l) / 2)) := by
        rw [hfr2 _ (fun hsub => by have := InSub.le hsub; omega)]
        exact hget1
      have hi_lt : i < t2.length := by
        have hx : (i + 2) * 2 ≤ t.length + 1 :=
          le_trans (Nat.mul_le_mul_left _ hpow2) hfit
        rw [hlen2, hlen1]
        omega
      set res := combine (foldRange values l (l + (r - l) / 2))
        (foldRange values (l + (r - l) / 2 + 1) r) with hres
      have ht'L : (t2.set i res).get? (i * 2 + 1)
          = some (foldRange values l (l + (r - l) / 2)) := by
        rw [List.get?_set_ne _ _ (by omega)]
        exact hl_in_t2
      have ht'R : (t2.set i res).get? (i * 2 + 2)
          = some (foldRange values (l + (r - l) / 2 + 1) r) := by
        rw [List.get?_set_ne _ _ (by omega)]
        exact hget2
      refine ⟨t2.set i res, ?_, ?_, ?_, ?_, ?_⟩
      · rw [build, if_neg hlr', if_neg (by omega : ¬ r < l)]
        simp only [hb1, hb2, hl_in_t2, hget2]
        rw [setE, if_pos hi_lt]
      · rw [List.length_set, hlen2, hlen1]
      · intro j hj
        have hji : j ≠ i := fun h => hj (h ▸ InSub.refl i)
        rw [List.get?_set_ne _ _ (fun h => hji h.symm),
          hfr2 _ (fun hs => hj (InSub.of_right hs)),
          hfr1 _ (fun hs => hj (InSub.of_left hs))]
      · rw [List.get?_set_eq_of_lt _ hi_lt, hres,
          foldRange_split values l (l + (r - l) / 2) r (by omega) (by omega) hr]
      · intro f hf
        obtain ⟨f', rfl⟩ : ∃ f'', f = f'' + 1 := ⟨f - 1, by omega⟩
        simp only [buildOk, if_neg hlr', if_neg (by omega : ¬ r < l)]
        have hokL : buildOk values f' l (l + (r - l) / 2) (i * 2 + 1) (t2.set i res) = true := by
          rw [← buildOk_congr values f' l (l + (r - l) / 2) (i * 2 + 1) t1 (t2.set i res)
            (fun j hj => by
              have hji : i < j := by have := InSub.le hj; omega
              rw [List.get?_set_ne _ _ (by omega)]
              exact (hfr2 j (fun hs => InSub.disjoint hj hs)).symm)]
          exact hok1 f' (by omega)
        have hokR : buildOk values f' (l + (r - l) / 2 + 1) r (i * 2 + 2) (t2.set i res) = true := by
          rw [← buildOk_congr values f' (l + (r - l) / 2 + 1) r (i * 2 + 2) t2 (t2.set i res)
            (fun j hj => by
              have hji : i < j := by have := InSub.le hj; omega
              rw [List.get?_set_ne _ _ (by omega)])]
          exact hok2 f' (by omega)
        rw [hokL, hokR]
        rw [getD_from_get?, getD_from_get?, ht'L, ht'R,
          List.get?_set_eq_of_lt _ hi_lt]
        simp [hres]

theorem new_main (values : List ISegment) (hne : values ≠ []) :
    ∃ t, new values = some t ∧
      t.length = 2 * 2 ^ Nat.clog 2 values.length - 1 ∧
      t.get? 0 = some (foldRange values 0 (values.length - 1)) ∧
      ∀ f, values.length - 1 < f → buildOk values f 0 (values.length - 1) 0 t = true := by
  obtain ⟨x, xs, rfl⟩ := List.exists_cons_of_ne_nil hne
  have hn : 1 ≤ (x :: xs).length := by simp
  have hfit : (0 + 2) * 2 ^ Nat.clog 2 ((x :: xs).length - 1 - 0 + 1)
      ≤ (List.replicate (2 * 2 ^ Nat.clog 2 (x :: xs).length - 1)
          (default : ISegment)).length + 1 := by
    rw [List.length_replicate]
    have h1 : (x :: xs).length - 1 - 0 + 1 = (x :: xs).length := by omega
    rw [h1]
    have h2 : 0 < 2 * 2 ^ Nat.clog 2 (x :: xs).length := by positivity
    omega
  obtain ⟨t, hb, hlen, _hframe, hget, hok⟩ :=
    build_main (x :: xs) ((x :: xs).length - 1) 0 ((x :: xs).length - 1) 0
      (List.replicate (2 * 2 ^ Nat.clog 2 (x :: xs).length - 1) default)
      (by omega) (by omega) (by omega) hfit
  refine ⟨t, ?_, ?_, by simpa using hget, by simpa using hok⟩
  · show build (x :: xs) 0 0 ((x :: xs).length - 1)
        (List.replicate (2 * 2 ^ Nat.clog 2 (x :: xs).length - 1) default) = some t
    exact hb
  · rw [hlen, List.length_replicate]

theorem foldRange_full (x : ISegment) (xs : List ISegment) :
    foldRange (x :: xs) 0 ((x :: xs).length - 1) = xs.foldl combine x := by
  simp [foldRange, List.take_length]

theorem foldl_combine_count (xs : List ISegment) : ∀ a : ISegment,
    (xs.foldl combine a).count = a.count + (xs.map ISegment.count).sum := by
  induction xs with
  | nil => intro a; simp
  | cons z ys ih =>
    intro a
    show (ys.foldl combine (combine a z)).count = _
    rw [ih]
    simp [combine]
    omega

theorem foldl_combine_sum (xs : List ISegment) : ∀ a : ISegment,
    (xs.foldl combine a).sum = a.sum + (xs.map ISegment.sum).sum := by
  induction xs with
  | nil => intro a; simp
  | cons z ys ih =>
    intro a
    show (ys.foldl combine (combine a z)).sum = _
    rw [ih]
    simp [combine]
    ring

theorem foldl_combine_start (xs : List ISegment) : ∀ a : ISegment,
    (xs.foldl combine a).span.start = a.span.start := by
  induction xs with
  | nil => intro a; rfl
  | cons z ys ih =>
    intro a
    show (ys.foldl combine (combine a z)).span.start = _
    rw [ih]
    rfl

theorem foldl_combine_stop (xs : List ISegment) : ∀ a : ISegment,
    (xs.foldl combine a).span.stop = (xs.getLastD a).span.stop := by
  induction xs with
  | nil => intro a; rfl
  | cons z ys ih =>
    intro a
    rw [List.foldl_cons, List.getLastD_cons, ih]
    cases ys with
    | nil => rfl
    | cons w ws => rfl

theorem foldl_combine_max_mem (xs : List ISegment) : ∀ a : ISegment,
    (xs.foldl combine a).max = a.max ∨ (xs.foldl combine a).max ∈ xs.map ISegment.max := by
  induction xs with
  | nil => intro a; exact Or.inl rfl
  | cons z ys ih =>
    intro a
    rcases ih (combine a z) with h | h
    · rcases max_choice a.max z.max with hm | hm
      · exact Or.inl (by rw [List.foldl_cons]; rw [h]; exact hm)
      · refine Or.inr ?_
        simp only [List.map_cons, List.mem_cons]
        exact Or.inl (by rw [List.foldl_cons]; rw [h]; exact hm)
    · refine Or.inr ?_
      simp only [List.map_cons, List.mem_cons]
      exact Or.inr h

theorem foldl_combine_max_ge (xs : List ISegment) : ∀ a : ISegment,
    a.max ≤ (xs.foldl combine a).max ∧ ∀ s ∈ xs, s.max ≤ (xs.foldl combine a).max := by
  induction xs with
  | nil => intro a; exact ⟨le_refl _, by simp⟩
  | cons z ys ih =>
    intro a
    obtain ⟨h1, h2⟩ := ih (combine a z)
    have haz : a.max ≤ (combine a z).max := le_max_left _ _
    have hzz : z.max ≤ (combine a z).max := le_max_right _ _
    refine ⟨le_trans haz h1, ?_⟩
    intro s hs
    rcases List.mem_cons.mp hs with rfl | hs'
    · exact le_trans hzz h1
    · exact h2 s hs'

theorem foldl_combine_min_mem (xs : List ISegment) : ∀ a : ISegment,
    (xs.foldl combine a).min = a.min ∨ (xs.foldl combine a).min ∈ xs.map ISegment.min := by
  induction xs with
  | nil => intro a; exact Or.inl rfl
  | cons z ys ih =>
    intro a
    rcases ih (combine a z) with h | h
    · rcases min_choice a.min z.min with hm | hm
      · exact Or.inl (by rw [List.foldl_cons]; rw [h]; exact hm)
      · refine Or.inr ?_
        simp only [List.map_cons, List.mem_cons]
        exact Or.inl (by rw [List.foldl_cons]; rw [h]; exact hm)
    · refine Or.inr ?_
      simp only [List.map_cons, List.mem_cons]
      exact Or.inr h

theorem foldl_combine_min_le (xs : List ISegment) : ∀ a : ISegment,
    (xs.foldl combine a).min ≤ a.min ∧ ∀ s ∈ xs, (xs.foldl combine a).min ≤ s.min := by
  induction xs with
  | nil => intro a; exact ⟨le_refl _, by simp⟩
  | cons z ys ih =>
    intro a
    obtain ⟨h1, h2⟩ := ih (combine a z)
    have haz : (combine a z).min ≤ a.min := min_le_left _ _
    have hzz : (combine a z).min ≤ z.min := min_le_right _ _
    refine ⟨le_trans h1 haz, ?_⟩
    intro s hs
    rcases List.mem_cons.mp hs with rfl | hs'
    · exact le_trans h1 hzz
    · exact h2 s hs'

/-! ## The BFS/DFS query equivalence -/

theorem agAdd_comm (a b : Aggr) : agAdd a b = agAdd b a := by
  simp [agAdd, add_comm, max_comm, min_comm]

theorem agAdd_assoc (a b c : Aggr) : agAdd (agAdd a b) c = agAdd a (agAdd b c) := by
  simp [agAdd, add_assoc, max_assoc, min_assoc]

theorem oadd_none_right (x : Option Aggr) : oadd x none = x := by
  cases x <;> rfl

theorem oadd_none_left (x : Option Aggr) : oadd none x = x := by
  cases x <;> rfl

theorem oadd_comm (x y : Option Aggr) : oadd x y = oadd y x := by
  cases x <;> cases y <;> simp [oadd, agAdd_comm]

theorem oadd_assoc (x y z : Option Aggr) : oadd (oadd x y) z = oadd x (oadd y z) := by
  cases x <;> cases y <;> cases z <;> simp [oadd, agAdd_assoc]

theorem foldl_oadd_hoist (L : List (Option Aggr)) : ∀ x y : Option Aggr,
    L.foldl oadd (oadd x y) = oadd (L.foldl oadd x) y := by
  induction L with
  | nil => intro x y; rfl
  | cons z L ih =>
    intro x y
    show L.foldl oadd (oadd (oadd x y) z) = oadd (L.foldl oadd (oadd x z)) y
    rw [oadd_assoc, oadd_comm y z, ← oadd_assoc]
    exact ih (oadd x z) y

theorem query_dfs_oob {t : List ISegment} {i : ℕ} (query_span : Span)
    (h : t.length ≤ i) : query_dfs t i query_span = none := by
  rw [query_dfs, dif_pos h]

theorem dfsAg_oob {t : List ISegment} {i : ℕ} (query_span : Span)
    (h : t.length ≤ i) : dfsAg t query_span i = none := by
  rw [dfsAg, query_dfs_oob query_span h]
  rfl

theorem dfsAg_no_overlap {t : List ISegment} {i : ℕ} {query_span : Span}
    (hi : i < t.length)
    (hno : query_span.stop < (t.getD i default).span.start ∨
      (t.getD i default).span.stop < query_span.start) :
    dfsAg t query_span i = none := by
  rw [dfsAg, query_dfs, dif_neg (by omega), if_pos hno]
  rfl

theorem dfsAg_total {t : List ISegment} {i : ℕ} {query_span : Span}
    (hi : i < t.length)
    (hno : ¬ (query_span.stop < (t.getD i default).span.start ∨
      (t.getD i default).span.stop < query_span.start))
    (htot : query_span.start ≤ (t.getD i default).span.start ∧
      (t.getD i default).span.stop ≤ query_span.stop) :
    dfsAg t query_span i = some (ag (t.getD i default)) := by
  rw [dfsAg, query_dfs, dif_neg (by omega), if_neg hno, if_pos htot]
  rfl

theorem dfsAg_descend {t : List ISegment} {i : ℕ} {query_span : Span}
    (hi : i < t.length)
    (hno : ¬ (query_span.stop < (t.getD i default).span.start ∨
      (t.getD i default).span.stop < query_span.start))
    (htot : ¬ (query_span.start ≤ (t.getD i default).span.start ∧
      (t.getD i default).span.stop ≤ query_span.stop)) :
    dfsAg t query_span i
      = oadd (dfsAg t query_span (i * 2 + 1)) (dfsAg t query_span (i * 2 + 2)) := by
  unfold dfsAg
  rw [query_dfs, dif_neg (by omega), if_neg hno, if_neg htot]
  cases hL : query_dfs t (i * 2 + 1) query_span <;>
    cases hR : query_dfs t (i * 2 + 2) query_span <;>
    simp [oadd, ag, agAdd]

theorem subSize_zero {len i : ℕ} (h : ¬ i < len) : subSize len i = 0 := by
  rw [subSize, dif_neg h]

theorem subSize_rec {len i : ℕ} (h : i < len) :
    subSize len i = 1 + subSize len (i * 2 + 1) + subSize len (i * 2 + 2) := by
  rw [subSize, dif_pos h]

theorem qinv_append_children (i : ℕ) : ∀ rest : List ℕ,
    (∀ j ∈ rest, i < j ∧ j ≤ 2 * i) → QInv rest →
    QInv (rest ++ [i * 2 + 1, i * 2 + 2]) := by
  intro rest
  induction rest with
  | nil =>
    intro _ _
    refine ⟨?_, ?_, trivial⟩
    · intro j hj
      simp only [List.mem_singleton] at hj
      subst hj
      omega
    · intro j hj
      simp at hj
  | cons k rest' ih =>
    intro hbound hq
    obtain ⟨hk, hq'⟩ := hq
    have hik : i < k ∧ k ≤ 2 * i := hbound k (List.mem_cons_self k rest')
    refine ⟨?_, ?_⟩
    · intro j hj
      rcases List.mem_append.mp hj with hj' | hj'
      · exact hk j hj'
      · simp only [List.mem_cons, List.mem_singleton] at hj'
        rcases hj' with rfl | hj''
        · omega
        · rcases hj'' with rfl | h
          · omega
          · simp at h
    · exact ih (fun j hj => hbound j (List.mem_cons_of_mem k hj)) hq'

theorem foldl_oadd_all_oob (t : List ISegment) (query_span : Span) (x : Option ISegment) :
    ∀ L : List ℕ, (∀ j ∈ L, t.length ≤ j) →
    (L.map (dfsAg t query_span)).foldl oadd (x.map ag) = x.map ag := by
  intro L
  induction L with
  | nil => intro _; rfl
  | cons j L ih =>
    intro hall
    show (L.map (dfsAg t query_span)).foldl oadd
      (oadd (x.map ag) (dfsAg t query_span j)) = x.map ag
    rw [dfsAg_oob query_span (hall j (List.mem_cons_self j L)), oadd_none_right]
    exact ih (fun k hk => hall k (List.mem_cons_of_mem j hk))

theorem bfsLoop_fold_oob (t : List ISegment) (query_span : Span) (i : ℕ)
    (rest : List ℕ) (result : Option ISegment) (hioob : t.length ≤ i)
    (hb : ∀ j ∈ rest, i < j ∧ j ≤ 2 * i) :
    (bfsLoop t query_span (i :: rest) result).map ag
      = ((i :: rest).map (dfsAg t query_span)).foldl oadd (result.map ag) := by
  rw [bfsLoop.eq_2, dif_pos hioob, List.map_cons, List.foldl_cons,
    dfsAg_oob query_span hioob, oadd_none_right,
    foldl_oadd_all_oob t query_span result rest
      (fun j hj => le_trans hioob (le_of_lt (hb j hj).1))]

theorem bfsLoop_fold (t : List ISegment) (query_span : Span) : ∀ N : ℕ,
    ∀ (queue : List ℕ) (result : Option ISegment),
    (queue.map (subSize t.length)).sum ≤ N → QInv queue →
    (bfsLoop t query_span queue result).map ag
      = (queue.map (dfsAg t query_span)).foldl oadd (result.map ag) := by
  intro N
  induction N with
  | zero =>
    intro queue result hm hq
    cases queue with
    | nil => rw [bfsLoop.eq_1, List.map_nil, List.foldl_nil]
    | cons i rest =>
      have hioob : t.length ≤ i := by
        by_contra hlt
        have h1 := subSize_rec (lt_of_not_le hlt)
        simp only [List.map_cons, List.sum_cons] at hm
        omega
      exact bfsLoop_fold_oob t query_span i rest result hioob hq.1
  | succ N ih =>
    intro queue result hm hq
    cases queue with
    | nil => rw [bfsLoop.eq_1, List.map_nil, List.foldl_nil]
    | cons i rest =>
      obtain ⟨hb, hq'⟩ := hq
      by_cases hioob : t.length ≤ i
      · exact bfsLoop_fold_oob t query_span i rest result hioob hb
      · have hilt : i < t.length := lt_of_not_le hioob
        have hsub := subSize_rec hilt
        rw [bfsLoop.eq_2, dif_neg (by omega : ¬ i ≥ t.length)]
        simp only []
        by_cases hno : query_span.stop < (t.getD i default).span.start ∨
            (t.getD i default).span.stop < query_span.start
        · rw [if_pos hno]
          have hm' : (rest.map (subSize t.length)).sum ≤ N := by
            simp only [List.map_cons, List.sum_cons] at hm
            omega
          rw [ih rest result hm' hq', List.map_cons, List.foldl_cons,
            dfsAg_no_overlap hilt hno, oadd_none_right]
        · by_cases htot : query_span.start ≤ (t.getD i default).span.start ∧
              (t.getD i default).span.stop ≤ query_span.stop
          · rw [if_neg hno, if_pos htot]
            have hm' : (rest.map (subSize t.length)).sum ≤ N := by
              simp only [List.map_cons, List.sum_cons] at hm
              omega
            rw [ih rest _ hm' hq', List.map_cons, List.foldl_cons,
              dfsAg_total hilt hno htot]
            congr 1
            cases result with
            | none => simp [oadd, ag]
            | some res => simp [oadd, ag, agAdd]
          · rw [if_neg hno, if_neg htot]
            have hm' : ((rest ++ [i * 2 + 1, i * 2 + 2]).map (subSize t.length)).sum ≤ N := by
              simp only [List.map_cons, List.sum_cons, List.map_append, List.sum_append,
                List.map_nil, List.sum_nil] at hm ⊢
              omega
            have hq2 : QInv (rest ++ [i * 2 + 1, i * 2 + 2]) :=
              qinv_append_children i rest hb hq'
            rw [ih _ result hm' hq2]
            simp only [List.map_append, List.foldl_append, List.map_cons, List.map_nil,
              List.foldl_cons, List.foldl_nil]
            rw [dfsAg_descend hilt hno htot, ← oadd_assoc, foldl_oadd_hoist, foldl_oadd_hoist]

/-! ## Remaining claim theorems -/

/-- C7: for every backing array and every query span, `query_dfs` from the
root and `query_bfs` agree on the presence of a result, and when both return
a segment the two have equal `count`, `max`, `min` and `sum` (the `ag`
projection); the span bookkeeping may differ. -/
theorem c7_dfs_bfs_agree (t : List ISegment) (query_span : Span) :
    (query_dfs t 0 query_span).isSome = (query_bfs t query_span).isSome ∧
    (query_dfs t 0 query_span).map ag = (query_bfs t query_span).map ag := by
  have hmap : (query_dfs t 0 query_span).map ag = (query_bfs t query_span).map ag := by
    have h := bfsLoop_fold t query_span (subSize t.length 0) [0] none
      (by simp) ⟨fun j hj => by simp at hj, trivial⟩
    show _ = (bfsLoop t query_span [0] none).map ag
    rw [h]
    simp only [List.map_cons, List.map_nil, List.foldl_cons, List.foldl_nil,
      Option.map_none']
    rw [oadd_none_left]
    rfl
  refine ⟨?_, hmap⟩
  have h2 := congrArg Option.isSome hmap
  simpa using h2

/-- C9 counterexample: the root count is the sum of the leaf counts, not the
number of leaves.  `new` on the ascending contiguous single-bucket batch
`batchF` (whose bucket has `count = 5`) produces a root with `count = 5`,
but the batch has `n = 1` leaves. -/
theorem c9_root_count_counterexample :
    AscContig batchF ∧ batchF.length = 1 ∧
    new batchF = some [⟨⟨0, 1⟩, 5, 2, 2, 2⟩] ∧
    (⟨⟨0, 1⟩, 5, 2, 2, 2⟩ : ISegment).count ≠ batchF.length := by
  refine ⟨by norm_num [AscContig, batchF], rfl, ?_, by decide⟩
  simp [new, batchF, Nat.clog, build, setE, List.replicate, default_ISegment]

/-- C9 (amended): for every ascending contiguous batch, `new` succeeds and
the root's `count` is the sum of the leaf counts (hence equal to `n`
whenever every leaf has `count = 1`, as in the spec's unit-bucket reading),
its `sum` is the total of the leaf sums, its `max`/`min` are the elementwise
extrema over the leaves, and its span is `[first.start, last.end)`. -/
theorem c9_new_root_aggregates (values : List ISegment) (hne : values ≠ [])
    (hasc : AscContig values) :
    ∃ t root, new values = some t ∧ t.get? 0 = some root ∧
      root.count = (values.map ISegment.count).sum ∧
      ((∀ s ∈ values, s.count = 1) → root.count = values.length) ∧
      root.sum = (values.map ISegment.sum).sum ∧
      (root.max ∈ values.map ISegment.max ∧ ∀ q ∈ values.map ISegment.max, q ≤ root.max) ∧
      (root.min ∈ values.map ISegment.min ∧ ∀ q ∈ values.map ISegment.min, root.min ≤ q) ∧
      root.span = ⟨(values.head hne).span.start, (values.getLast hne).span.stop⟩ := by
  obtain ⟨x, xs, rfl⟩ := List.exists_cons_of_ne_nil hne
  obtain ⟨t, hnew, _hlen, hget, _hok⟩ := new_main (x :: xs) hne
  rw [foldRange_full] at hget
  refine ⟨t, xs.foldl combine x, hnew, hget, ?_, ?_, ?_, ⟨?_, ?_⟩, ⟨?_, ?_⟩, ?_⟩
  · rw [foldl_combine_count]
    simp
  · intro hall
    rw [foldl_combine_count]
    have hx : x.count = 1 := hall x (List.mem_cons_self x xs)
    have hxs : xs.map ISegment.count = List.replicate xs.length 1 := by
      rw [List.map_congr_left (g := fun _ => 1)
        (fun s hs => hall s (List.mem_cons_of_mem x hs))]
      exact List.map_const' xs 1
    rw [hx, hxs, List.sum_replicate]
    simp
    omega
  · rw [foldl_combine_sum]
    simp
  · rcases foldl_combine_max_mem xs x with h | h
    · rw [h]
      simp
    · simp only [List.map_cons, List.mem_cons]
      exact Or.inr h
  · intro q hq
    obtain ⟨h1, h2⟩ := foldl_combine_max_ge xs x
    simp only [List.map_cons, List.mem_cons] at hq
    rcases hq with rfl | hq'
    · exact h1
    · obtain ⟨s, hs, rfl⟩ := List.mem_map.mp hq'
      exact h2 s hs
  · rcases foldl_combine_min_mem xs x with h | h
    · rw [h]
      simp
    · simp only [List.map_cons, List.mem_cons]
      exact Or.inr h
  · intro q hq
    obtain ⟨h1, h2⟩ := foldl_combine_min_le xs x
    simp only [List.map_cons, List.mem_cons] at hq
    rcases hq with rfl | hq'
    · exact h1
    · obtain ⟨s, hs, rfl⟩ := List.mem_map.mp hq'
      exact h2 s hs
  · have hstart := foldl_combine_start xs x
    have hstop := foldl_combine_stop xs x
    cases hsp : (xs.foldl combine x).span with
    | mk a b =>
      rw [hsp] at hstart hstop
      simp only at hstart hstop
      rw [List.head_cons, List.getLast_eq_getLastD, ← hstart, ← hstop]

theorem batchB_ne_nil : batchB ≠ [] := by simp [batchB]

/-- Witness for C9 at the two-bucket batch `batchB`. -/
theorem c9_new_root_aggregates_witness :
    (batchB ≠ [] ∧ AscContig batchB) ∧
    (∃ t root, new batchB = some t ∧ t.get? 0 = some root ∧
      root.count = (batchB.map ISegment.count).sum ∧
      ((∀ s ∈ batchB, s.count = 1) → root.count = batchB.length) ∧
      root.sum = (batchB.map ISegment.sum).sum ∧
      (root.max ∈ batchB.map ISegment.max ∧ ∀ q ∈ batchB.map ISegment.max, q ≤ root.max) ∧
      (root.min ∈ batchB.map ISegment.min ∧ ∀ q ∈ batchB.map ISegment.min, root.min ≤ q) ∧
      root.span = ⟨(batchB.head batchB_ne_nil).span.start,
        (batchB.getLast batchB_ne_nil).span.stop⟩) :=
  ⟨⟨batchB_ne_nil, by norm_num [AscContig, batchB]⟩,
   c9_new_root_aggregates batchB batchB_ne_nil (by norm_num [AscContig, batchB])⟩

/-- C6 (amended): after `new` on an ascending contiguous batch, the layout
invariant that `build` actually establishes holds: every array position that
`build` visits with a one-bucket range holds exactly that input bucket (the
buckets in ascending order, left to right), and every position visited with
a longer range satisfies the `combine` consistency with its two children.
(The original claim's stronger reading — `combine` consistency at *every*
node with in-bounds children, preserved by `append` and `update` — is
refuted by the C6 counterexample above.) -/
theorem c6_build_layout_invariant (values : List ISegment) (hne : values ≠ [])
    (hasc : AscContig values) :
    ∃ t, new values = some t ∧
      ∀ f, values.length - 1 < f → buildOk values f 0 (values.length - 1) 0 t = true := by
  obtain ⟨t, hnew, _h1, _h2, hok⟩ := new_main values hne
  exact ⟨t, hnew, hok⟩

/-- Witness for C6 (amended) at the two-bucket batch `batchD`. -/
theorem c6_build_layout_invariant_witness :
    (batchD ≠ [] ∧ AscContig batchD) ∧
    (∃ t, new batchD = some t ∧
      ∀ f, batchD.length - 1 < f → buildOk batchD f 0 (batchD.length - 1) 0 t = true) :=
  ⟨⟨by simp [batchD], by norm_num [AscContig, batchD]⟩,
   c6_build_layout_invariant batchD (by simp [batchD]) (by norm_num [AscContig, batchD])⟩
